import Mathlib

/-!
Verification development for a DC circuit simulator.

The development shallowly embeds the MNA (Modified Nodal Analysis) assembly
code (`Circuit::assemble_MNA_system` plus the per-component
`get_contribution` stamp generators) and the modified Gauss-Seidel solver
(`Gauss_seidel::initialize`, `handle_zero_diagonal`, `compute_row_update`,
`check_convergence`, `dc_solve`, and `Solver::solve_MNA_system`).

Sparse maps (`std::unordered_map`) are embedded as association lists whose
iteration order is the list order; `double` is embedded as `ℚ`.  Node and
variable indices are `Nat`, with index `0` the ground reference.
-/

/-- Sparse vector: association list from variable index to value
(embedding of `std::unordered_map<int, double>`). -/
abbrev SVec := List (Nat × ℚ)

/-- One sparse matrix row: association list from column index to value. -/
abbrev SRow := List (Nat × ℚ)

/-- Sparse matrix: association list from row index to sparse row
(embedding of `std::unordered_map<int, std::unordered_map<int, double>>`). -/
abbrev SMat := List (Nat × SRow)

/-- Lookup of a key in a sparse vector / row (`map.find(k)`), returning the
first binding. -/
def vecGet : SVec → Nat → Option ℚ
  | [], _ => none
  | (k', v) :: rest, k => if k' = k then some v else vecGet rest k

/-- Additive update `m[k] += x` (`operator[]` default-inserts `0.0` then adds). -/
def vecAdd : SVec → Nat → ℚ → SVec
  | [], k, x => [(k, x)]
  | (k', v) :: rest, k, x =>
    if k' = k then (k', v + x) :: rest else (k', v) :: vecAdd rest k x

/-- Row lookup in a sparse matrix. -/
def matGetRow : SMat → Nat → Option SRow
  | [], _ => none
  | (r', row) :: rest, r => if r' = r then some row else matGetRow rest r

/-- Entry lookup `A[r][c]` as an `Option` (absent entries are `none`). -/
def matGet (A : SMat) (r c : Nat) : Option ℚ :=
  (matGetRow A r).bind (fun row => vecGet row c)

/-- Additive update `A[r][c] += x`. -/
def matAdd : SMat → Nat → Nat → ℚ → SMat
  | [], r, c, x => [(r, [(c, x)])]
  | (r', row) :: rest, r, c, x =>
    if r' = r then (r', vecAdd row c x) :: rest else (r', row) :: matAdd rest r c x

/-- Circuit components, carrying their terminal node indices (positive
terminal first), the extra-variable index for voltage sources and inductors,
and the component value. -/
inductive Component where
  | resistor (i j : Nat) (r : ℚ)
  | vsource (i j k : Nat) (v : ℚ)
  | isource (i j : Nat) (c : ℚ)
  | inductor (i j k : Nat) (l : ℚ)
  | capacitor (i j : Nat) (c : ℚ)
deriving DecidableEq

/-- The stamps a single component emits (`Component_contribution`):
matrix stamps `(row, col, value)` and vector stamps `(row, value)`,
in program emission order. -/
structure Contribution where
  matrixStamps : List (Nat × Nat × ℚ)
  vectorStamps : List (Nat × ℚ)
deriving DecidableEq

/-- Embedding of the per-component `get_contribution` bodies
(`resistor.cpp`, `voltage_source.cpp`, `current_source.cpp`,
`inductor.cpp`, `capacitor.cpp`).  Ground is index `0`. -/
def get_contribution : Component → Contribution
  | .resistor i j r =>
    let g := 1 / r
    { matrixStamps :=
        (i, i, g) :: (if i ≠ 0 ∧ j ≠ 0 then [(j, j, g), (i, j, -g), (j, i, -g)] else []),
      vectorStamps := [] }
  | .vsource i j k v =>
    { matrixStamps :=
        (if i ≠ 0 then [(i, k, 1), (k, i, 1)] else []) ++
        (if j ≠ 0 then [(j, k, 1), (k, j, -1)] else []),
      vectorStamps :=
        (if i ≠ 0 then [(i, -v)] else []) ++ (if j ≠ 0 then [(j, v)] else []) }
  | .isource i j c =>
    { matrixStamps := [],
      vectorStamps :=
        (if i ≠ 0 then [(i, -c)] else []) ++ (if j ≠ 0 then [(j, c)] else []) }
  | .inductor i j k _ =>
    { matrixStamps :=
        (if i ≠ 0 then [(i, k, 1), (k, i, 1)] else []) ++
        (if j ≠ 0 then [(j, k, -1), (k, j, -1)] else []),
      vectorStamps := [] }
  | .capacitor _ _ _ => { matrixStamps := [], vectorStamps := [] }

/-- Fold a component's matrix stamps into the sparse matrix
(`mna_matrix[mc.row][mc.col] += mc.value`). -/
def applyMatrixStamps (A : SMat) : List (Nat × Nat × ℚ) → SMat
  | [] => A
  | (r, c, v) :: rest => applyMatrixStamps (matAdd A r c v) rest

/-- Fold a component's vector stamps into the sparse vector
(`mna_vector[vc.row] += vc.value`). -/
def applyVectorStamps (b : SVec) : List (Nat × ℚ) → SVec
  | [] => b
  | (r, v) :: rest => applyVectorStamps (vecAdd b r v) rest

/-- Fold all components' contributions into `(A, b)`. -/
def stampComponents : List Component → SMat × SVec → SMat × SVec
  | [], s => s
  | comp :: rest, s =>
    let contrib := get_contribution comp
    stampComponents rest
      (applyMatrixStamps s.1 contrib.matrixStamps, applyVectorStamps s.2 contrib.vectorStamps)

/-- Embedding of `Circuit::assemble_MNA_system`: the matrix is cleared
(`mna_matrix.clear()`), the vector is NOT cleared, then every component's
stamps are accumulated. -/
def assemble_MNA_system (components : List Component) (s : SMat × SVec) : SMat × SVec :=
  stampComponents components ([], s.2)

/-- Solver parameters (`Gauss_seidel` constructor arguments). -/
structure GSParams where
  max_iter : Nat
  tolerance : ℚ
  damping_factor : ℚ

/-- Mutable solver state (`Gauss_seidel` members), the solution vector
is threaded separately alongside. -/
structure GSState where
  targets : List Nat
  independent_targets : List Nat
  lhs_values : List ℚ
  converged : Bool
  converge_iters : Nat

/-- Embedding of `Gauss_seidel::initialize(size)`. -/
def initSolver (size : Nat) : GSState :=
  { targets := List.range size
    independent_targets := []
    lhs_values := List.replicate size 0
    converged := false
    converge_iters := 0 }

/-- Insertion into the `independent_targets` set (`std::set::insert`). -/
def setInsert (x : Nat) (s : List Nat) : List Nat := if x ∈ s then s else x :: s

/-- Index of the first element equal to `x`
(the `for` loop with `break` in the target swap). -/
def findOwner (x : Nat) : List Nat → Option Nat
  | [] => none
  | y :: ys => if y = x then some 0 else (findOwner x ys).map Nat.succ

/-- The candidate-search loop inside `handle_zero_diagonal`: scans the row,
skipping zero values and columns already in `independent_targets`, tracking
the running maximum absolute value `mv` at index `mi` and the `independent`
flag `ind`. -/
def hzd_scan (tgt : Nat) (indep : List Nat) : SRow → ℚ → Nat → Bool → ℚ × Nat × Bool
  | [], mv, mi, ind => (mv, mi, ind)
  | (col, value) :: rest, mv, mi, ind =>
    if value = 0 then hzd_scan tgt indep rest mv mi ind
    else if col ∈ indep then hzd_scan tgt indep rest mv mi ind
    else
      let ind' := if mi ≠ tgt then false else ind
      if |value| ≤ mv then hzd_scan tgt indep rest mv mi ind'
      else hzd_scan tgt indep rest |value| col ind'

/-- Embedding of `Gauss_seidel::handle_zero_diagonal(row, col_map)`. -/
def handle_zero_diagonal (row : Nat) (col_map : SRow) (st : GSState) : GSState :=
  let tgt := st.targets.getD row 0
  if (vecGet col_map tgt).getD 0 ≠ 0 then st
  else
    let res := hzd_scan tgt st.independent_targets col_map 0 tgt true
    let max_idx := res.2.1
    if max_idx = tgt then st
    else
      let indep' :=
        if res.2.2 then setInsert max_idx st.independent_targets
        else st.independent_targets
      let ts' :=
        match findOwner max_idx st.targets with
        | some i => st.targets.set i tgt
        | none => st.targets
      { st with targets := ts'.set row max_idx, independent_targets := indep' }

/-- The accumulation loop inside `compute_row_update`: returns
`(sum, diag)` where `sum` collects `value * x[col]` over columns other than
the target and `diag` the coefficient at the target column. -/
def cru_scan (tgt : Nat) (sol : List ℚ) : SRow → ℚ → ℚ → ℚ × ℚ
  | [], s, d => (s, d)
  | (col, v) :: rest, s, d =>
    if col ≠ tgt then cru_scan tgt sol rest (s + v * sol.getD col 0) d
    else cru_scan tgt sol rest s v

/-- Embedding of `Gauss_seidel::compute_row_update`: computes the damped
update `x[target] := ω·(rhs - sum)/diag + (1-ω)·x[target]`, writes it into
the solution, and returns the realized left-hand side together with the
updated solution vector. -/
def compute_row_update (df : ℚ) (row : Nat) (col_map : SRow) (mna_vector : SVec)
    (targets : List Nat) (sol : List ℚ) : ℚ × List ℚ :=
  let tgt := targets.getD row 0
  let sd := cru_scan tgt sol col_map 0 0
  let rhs_value := (vecGet mna_vector row).getD 0
  let x_new := (rhs_value - sd.1) / sd.2
  let xt := df * x_new + (1 - df) * sol.getD tgt 0
  (sd.1 + sd.2 * xt, sol.set tgt xt)

/-- Embedding of `Gauss_seidel::check_convergence`: true iff every row index
`i < size` satisfies `|lhs_values[i] - b[i]| ≤ tolerance` (absent `b[i]`
counting as `0`). -/
def check_convergence (tol : ℚ) (mna_vector : SVec) (lhs : List ℚ) (size : Nat) : Bool :=
  (List.range size).all
    (fun i => decide (|lhs.getD i 0 - (vecGet mna_vector i).getD 0| ≤ tol))

/-- One row of the per-iteration loop body of `dc_solve`: pivot
stabilization, the skip rule for a still-unusable diagonal, then the row
update recording `lhs_values[row]`. -/
def row_step (df : ℚ) (mna_vector : SVec) (s : GSState × List ℚ) (rc : Nat × SRow) :
    GSState × List ℚ :=
  let st1 := handle_zero_diagonal rc.1 rc.2 s.1
  let tgt := st1.targets.getD rc.1 0
  if (vecGet rc.2 tgt).getD 0 = 0 then (st1, s.2)
  else
    let res := compute_row_update df rc.1 rc.2 mna_vector st1.targets s.2
    ({ st1 with lhs_values := st1.lhs_values.set rc.1 res.1 }, res.2)

/-- One full sweep over the matrix rows (in iteration order of the sparse
matrix, embedded as list order). -/
def gs_sweep (df : ℚ) (A : SMat) (mna_vector : SVec) (s : GSState × List ℚ) :
    GSState × List ℚ :=
  A.foldl (row_step df mna_vector) s

/-- The iteration loop of `dc_solve`: `for (converge_iters = 1;
converge_iters < max_iter; converge_iters++)`, with the convergence check
run only when the iteration counter is divisible by 5, returning
immediately on a passed check. -/
def dc_loop (p : GSParams) (A : SMat) (b : SVec) (k : Nat) (s : GSState × List ℚ) :
    GSState × List ℚ :=
  if h : k < p.max_iter then
    let s1 := gs_sweep p.damping_factor A b s
    let st1 : GSState := { s1.1 with converge_iters := k }
    if k % 5 ≠ 0 then dc_loop p A b (k + 1) (st1, s1.2)
    else if check_convergence p.tolerance b st1.lhs_values s1.2.length then
      ({ st1 with converged := true }, s1.2)
    else dc_loop p A b (k + 1) ({ st1 with converged := false }, s1.2)
  else ({ s.1 with converge_iters := k }, s.2)
termination_by p.max_iter - k

/-- Embedding of `Gauss_seidel::dc_solve`. -/
def dc_solve (p : GSParams) (A : SMat) (b : SVec) (solution : List ℚ) :
    GSState × List ℚ :=
  dc_loop p A b 1 (initSolver solution.length, solution)

/-- Embedding of `std::vector::resize(n, 0.0)`: keeps the existing prefix
and pads with zeros up to length `n`. -/
def resizeZero (l : List ℚ) (n : Nat) : List ℚ :=
  l.take n ++ List.replicate (n - l.length) 0

/-- Embedding of `Solver::solve_MNA_system`: sizes the solution vector to
`mna_matrix.size() + 1` (zero-filling new slots) and runs the Gauss-Seidel
solve. -/
def solve_MNA_system (p : GSParams) (A : SMat) (b : SVec) (solution : List ℚ) :
    GSState × List ℚ :=
  dc_solve p A b (resizeZero solution (A.length + 1))

/-- Result kinds of the component-type dispatch in `Circuit::parse_netlist`. -/
inductive NetlistKind where
  | resistorKind | vsourceKind | isourceKind
deriving DecidableEq

/-- Embedding of the type-letter dispatch in `Circuit::parse_netlist`:
`toupper(component_id[0])` is compared against 'R', 'V', 'I'; anything else
raises the "Unknown component type" error (embedded as `none`). -/
def parse_dispatch (c : Char) : Option NetlistKind :=
  if c.toUpper = 'R' then some .resistorKind
  else if c.toUpper = 'V' then some .vsourceKind
  else if c.toUpper = 'I' then some .isourceKind
  else none

/-- Value of a sparse vector entry with absent entries read as `0`
(the semantic reading used throughout the solver). -/
def vecGetD (m : SVec) (k : Nat) : ℚ := (vecGet m k).getD 0

/-- Value of a sparse matrix entry with absent entries read as `0`. -/
def matGetD (A : SMat) (r c : Nat) : ℚ := (matGet A r c).getD 0

/-- The total contribution of a list of vector stamps to row `r`. -/
def stampSumV (stamps : List (Nat × ℚ)) (r : Nat) : ℚ :=
  (stamps.map (fun p => if r = p.1 then p.2 else 0)).sum

/-- The total contribution of a list of matrix stamps to entry `(a, b)`. -/
def stampSumM (stamps : List (Nat × Nat × ℚ)) (a b : Nat) : ℚ :=
  (stamps.map (fun t => if a = t.1 ∧ b = t.2.1 then t.2.2 else 0)).sum

/-- Candidate entries considered by the `handle_zero_diagonal` scan:
nonzero value, column not already in `independent_targets`. -/
def candList (indep : List Nat) (cm : SRow) : SRow :=
  cm.filter (fun q => decide (q.2 ≠ 0 ∧ q.1 ∉ indep))

/-- Invariant tying the scan accumulator to the candidates processed so far:
before any candidate the accumulator is untouched; afterwards it holds a
maximal-absolute-value candidate and the `independent` flag records whether
at most one candidate has been seen. -/
def ScanInv (tgt : Nat) (C : SRow) (acc : ℚ × Nat × Bool) : Prop :=
  (C = [] → acc.2.1 = tgt ∧ acc.1 = 0 ∧ acc.2.2 = true) ∧
  (C ≠ [] → acc.2.1 ≠ tgt ∧
    (∃ v, (acc.2.1, v) ∈ C ∧ acc.1 = |v| ∧ ∀ q ∈ C, |q.2| ≤ |v|) ∧
    (acc.2.2 = true ↔ C.length = 1))

/-- The index the per-row body writes into the solution vector: `none` when
the skip rule fires, otherwise the row's post-pivot target (the index of the
`solution[targets[row]] = ...` store in `compute_row_update`). -/
def row_update_writes_index (row : Nat) (cm : SRow) (st : GSState) : Option Nat :=
  let st1 := handle_zero_diagonal row cm st
  let tgt := st1.targets.getD row 0
  if (vecGet cm tgt).getD 0 = 0 then none else some tgt

/-- A matrix row key and its column keys agree on being ground: column 0
occurs only in row 0 and row 0 holds only column 0 (true of every assembled
MNA system whose extra variables are non-ground). -/
def matGroundIso (A : SMat) : Prop :=
  ∀ rc ∈ A, ∀ c ∈ rc.2.map Prod.fst, (rc.1 = 0 ↔ c = 0)

/-- The sparse vector never carries the ground row key. -/
def vecNoGround (b : SVec) : Prop := ∀ r ∈ b.map Prod.fst, r ≠ 0

/-- Extra variables of voltage sources and inductors are non-ground
(their indices come from the global node counter, after ground). -/
def extraVarNonzero : Component → Prop
  | .vsource _ _ k _ => k ≠ 0
  | .inductor _ _ k _ => k ≠ 0
  | _ => True

theorem vecGet_vecAdd (m : SVec) (k k' : Nat) (x : ℚ) :
    vecGet (vecAdd m k x) k' =
      if k' = k then some ((vecGet m k).getD 0 + x) else vecGet m k' := by
  induction m with
  | nil =>
    by_cases h : k' = k <;> simp [vecAdd, vecGet, h]
    intro h'; exact absurd h'.symm h
  | cons hd tl ih =>
    obtain ⟨k0, v0⟩ := hd
    by_cases h0 : k0 = k
    · subst h0
      by_cases h : k' = k0
      · subst h; simp [vecAdd, vecGet]
      · have h' : ¬ k0 = k' := fun hh => h hh.symm
        simp [vecAdd, vecGet, h, h']
    · by_cases h : k' = k
      · subst h
        simp [vecAdd, vecGet, h0, ih, fun h' : k0 = k' => h0 h']
      · by_cases h1 : k0 = k' <;> simp [vecAdd, vecGet, h0, h1, ih, h]

theorem vecGetD_vecAdd (m : SVec) (k k' : Nat) (x : ℚ) :
    vecGetD (vecAdd m k x) k' = vecGetD m k' + if k' = k then x else 0 := by
  unfold vecGetD
  rw [vecGet_vecAdd]
  by_cases h : k' = k <;> simp [h]

theorem matGetD_matAdd (A : SMat) (r c : Nat) (x : ℚ) (a b : Nat) :
    matGetD (matAdd A r c x) a b = matGetD A a b + if a = r ∧ b = c then x else 0 := by
  induction A with
  | nil =>
    by_cases ha : a = r
    · subst ha
      by_cases hb : b = c
      · subst hb; simp [matAdd, matGetD, matGet, matGetRow, vecGet]
      · have hb' : ¬ c = b := fun hh => hb hh.symm
        simp [matAdd, matGetD, matGet, matGetRow, vecGet, hb, hb']
    · have ha' : ¬ r = a := fun hh => ha hh.symm
      simp [matAdd, matGetD, matGet, matGetRow, ha, ha']
  | cons hd tl ih =>
    obtain ⟨r0, row⟩ := hd
    by_cases h0 : r0 = r
    · subst h0
      by_cases ha : r0 = a
      · subst ha
        have : vecGetD (vecAdd row c x) b = vecGetD row b + if b = c then x else 0 :=
          vecGetD_vecAdd row c b x
        simp [matAdd, matGetD, matGet, matGetRow, vecGetD] at this ⊢
        rw [this]
      · have ha' : ¬ a = r0 := fun hh => ha hh.symm
        simp [matAdd, matGetD, matGet, matGetRow, ha, ha']
    · by_cases ha : r0 = a
      · have h0' : ¬ a = r := fun hh => h0 (ha.trans hh)
        simp [matAdd, matGetD, matGet, matGetRow, h0, ha, h0']
      · simp [matAdd, matGetD, matGet, matGetRow, h0, ha] at ih ⊢
        exact ih

theorem vecGetD_applyVectorStamps (stamps : List (Nat × ℚ)) (b : SVec) (r : Nat) :
    vecGetD (applyVectorStamps b stamps) r = vecGetD b r + stampSumV stamps r := by
  induction stamps generalizing b with
  | nil => simp [applyVectorStamps, stampSumV]
  | cons hd tl ih =>
    obtain ⟨k, x⟩ := hd
    show vecGetD (applyVectorStamps (vecAdd b k x) tl) r = _
    rw [ih, vecGetD_vecAdd]
    simp [stampSumV]
    ring

theorem matGetD_applyMatrixStamps (stamps : List (Nat × Nat × ℚ)) (A : SMat) (a b : Nat) :
    matGetD (applyMatrixStamps A stamps) a b = matGetD A a b + stampSumM stamps a b := by
  induction stamps generalizing A with
  | nil => simp [applyMatrixStamps, stampSumM]
  | cons hd tl ih =>
    obtain ⟨r, c, x⟩ := hd
    show matGetD (applyMatrixStamps (matAdd A r c x) tl) a b = _
    rw [ih, matGetD_matAdd]
    simp [stampSumM]
    ring

theorem stampComponents_fst (cs : List Component) (A : SMat) (b b' : SVec) :
    (stampComponents cs (A, b)).1 = (stampComponents cs (A, b')).1 := by
  induction cs generalizing A b b' with
  | nil => rfl
  | cons c tl ih => exact ih _ _ _

theorem stampComponents_snd (cs : List Component) (A A' : SMat) (b : SVec) :
    (stampComponents cs (A, b)).2 = (stampComponents cs (A', b)).2 := by
  induction cs generalizing A A' b with
  | nil => rfl
  | cons c tl ih => exact ih _ _ _

theorem stampComponents_vec (cs : List Component) (A : SMat) (b : SVec) (r : Nat) :
    vecGetD (stampComponents cs (A, b)).2 r =
      vecGetD b r + vecGetD (stampComponents cs (A, [])).2 r := by
  induction cs generalizing A b with
  | nil => simp [stampComponents, vecGetD, vecGet]
  | cons c tl ih =>
    show vecGetD (stampComponents tl
      (applyMatrixStamps A (get_contribution c).matrixStamps,
        applyVectorStamps b (get_contribution c).vectorStamps)).2 r = _
    rw [ih, vecGetD_applyVectorStamps]
    have h2 : vecGetD (stampComponents tl
        (applyMatrixStamps A (get_contribution c).matrixStamps,
          applyVectorStamps [] (get_contribution c).vectorStamps)).2 r =
        vecGetD (applyVectorStamps ([] : SVec) (get_contribution c).vectorStamps) r +
          vecGetD (stampComponents tl
            (applyMatrixStamps A (get_contribution c).matrixStamps, [])).2 r := ih _ _
    rw [vecGetD_applyVectorStamps] at h2
    simp only [vecGetD, vecGet, Option.getD_none] at h2 ⊢
    rw [show stampComponents (c :: tl) (A, ([] : SVec)) = stampComponents tl
      (applyMatrixStamps A (get_contribution c).matrixStamps,
        applyVectorStamps [] (get_contribution c).vectorStamps) from rfl, h2]
    ring

/-- C10: `Circuit::assemble_MNA_system` clears the matrix but not the vector
before accumulating stamps, so for every circuit, assembling twice in
succession yields the same matrix as assembling once while every entry of
the vector is exactly doubled (assembly is not idempotent on `b`). -/
theorem c10_assemble_twice_doubles_vector (cs : List Component) :
    (assemble_MNA_system cs (assemble_MNA_system cs ([], []))).1 =
      (assemble_MNA_system cs ([], [])).1 ∧
    ∀ r, vecGetD (assemble_MNA_system cs (assemble_MNA_system cs ([], []))).2 r =
      2 * vecGetD (assemble_MNA_system cs ([], [])).2 r := by
  constructor
  · exact stampComponents_fst cs [] _ _
  · intro r
    show vecGetD (stampComponents cs ([], (stampComponents cs ([], ([] : SVec))).2)).2 r =
      2 * vecGetD (stampComponents cs ([], ([] : SVec))).2 r
    rw [stampComponents_vec]
    ring

/-- C2: evaluation of `Voltage_source::get_contribution` for a source of
value `10` between non-ground terminals `i = 1` (+) and `j = 2` (-) with
extra variable `k = 3`.  The code emits the matrix stamp `A[2][3] += 1`
(the claim requires `A[2][3] -= 1`) and emits its vector stamps at the node
rows (`b[1] -= 10`, `b[2] += 10`) instead of the single claimed stamp
`b[3] = 10`: the assembled system has `A[2][3] = 1` and no entry at `b[3]`. -/
theorem c2_voltage_source_stamp_eval :
    (get_contribution (.vsource 1 2 3 10)).matrixStamps =
        [(1, 3, 1), (3, 1, 1), (2, 3, 1), (3, 2, -1)] ∧
    (get_contribution (.vsource 1 2 3 10)).vectorStamps = [(1, -10), (2, 10)] ∧
    matGet (assemble_MNA_system [.vsource 1 2 3 10] ([], [])).1 2 3 = some 1 ∧
    vecGet (assemble_MNA_system [.vsource 1 2 3 10] ([], [])).2 3 = none := by
  refine ⟨?_, ?_, ?_, ?_⟩ <;>
    norm_num [get_contribution, assemble_MNA_system, stampComponents,
      applyMatrixStamps, applyVectorStamps, matAdd, vecAdd, matGet, matGetRow, vecGet]

/-- C3: evaluation of the assembler on the netlist `R1 0 1 1000` (a resistor
whose positive terminal is the ground node).  `Resistor::get_contribution`
stamps `A[ni][ni] += G` unconditionally, so the assembled matrix contains
the ground index `0` as a row key and a column key (`A[0][0] = 1/1000`),
contradicting the claim that the ground index never occurs. -/
theorem c3_ground_key_eval :
    matGetRow (assemble_MNA_system [.resistor 0 1 1000] ([], [])).1 0 =
        some [(0, 1/1000)] ∧
    matGet (assemble_MNA_system [.resistor 0 1 1000] ([], [])).1 0 0 = some (1/1000) := by
  constructor <;>
    norm_num [get_contribution, assemble_MNA_system, stampComponents,
      applyMatrixStamps, applyVectorStamps, matAdd, vecAdd, matGet, matGetRow, vecGet]

/-- C4: the type-letter dispatch of `Circuit::parse_netlist` accepts only
R, V, I (case-insensitively) and raises the "Unknown component type" error
for L and C in both cases, although the repository's own tests parse
netlists containing `L1 ...` and `C1 ...` lines. -/
theorem c4_parse_dispatch_eval :
    parse_dispatch 'L' = none ∧ parse_dispatch 'l' = none ∧
    parse_dispatch 'C' = none ∧ parse_dispatch 'c' = none ∧
    parse_dispatch 'R' = some .resistorKind ∧ parse_dispatch 'r' = some .resistorKind ∧
    parse_dispatch 'V' = some .vsourceKind ∧ parse_dispatch 'v' = some .vsourceKind ∧
    parse_dispatch 'I' = some .isourceKind ∧ parse_dispatch 'i' = some .isourceKind := by
  decide

theorem resistor_stampSumM_symm (i j : Nat) (r : ℚ) (a b : Nat) :
    stampSumM (get_contribution (.resistor i j r)).matrixStamps a b =
      stampSumM (get_contribution (.resistor i j r)).matrixStamps b a := by
  by_cases hij : i ≠ 0 ∧ j ≠ 0 <;>
    by_cases h1 : a = i <;> by_cases h2 : b = i <;>
      by_cases h3 : a = j <;> by_cases h4 : b = j <;>
        simp [stampSumM, get_contribution, hij, h1, h2, h3, h4, and_comm] <;> ring

theorem stampComponents_resistors_symm (cs : List Component) (A : SMat) (b0 : SVec)
    (hres : ∀ comp ∈ cs, ∃ i j r, comp = Component.resistor i j r)
    (hsym : ∀ a b, matGetD A a b = matGetD A b a) :
    ∀ a b, matGetD (stampComponents cs (A, b0)).1 a b =
      matGetD (stampComponents cs (A, b0)).1 b a := by
  induction cs generalizing A b0 with
  | nil => intro a b; exact hsym a b
  | cons c tl ih =>
    intro a b
    obtain ⟨i, j, r, rfl⟩ := hres c (List.mem_cons_self c tl)
    show matGetD (stampComponents tl
      (applyMatrixStamps A (get_contribution (.resistor i j r)).matrixStamps, _)).1 a b = _
    refine ih _ _ (fun comp hc => hres comp (List.mem_cons_of_mem _ hc)) ?_ a b
    intro a' b'
    rw [matGetD_applyMatrixStamps, matGetD_applyMatrixStamps, hsym a' b',
      resistor_stampSumM_symm i j r a' b']

/-- C7: for every circuit containing only resistors, the matrix assembled by
`assemble_MNA_system` is symmetric: `A[a][b] = A[b][a]` for every pair of
indices, an absent entry counting as `0`. -/
theorem c7_resistor_matrix_symmetric (cs : List Component)
    (hres : ∀ comp ∈ cs, ∃ i j r, comp = Component.resistor i j r) (a b : Nat) :
    matGetD (assemble_MNA_system cs ([], [])).1 a b =
      matGetD (assemble_MNA_system cs ([], [])).1 b a := by
  exact stampComponents_resistors_symm cs [] []
    hres (fun _ _ => by simp [matGetD, matGet, matGetRow]) a b

/-- Witness for C7 at a concrete two-resistor circuit. -/
theorem c7_resistor_matrix_symmetric_witness :
    (∀ comp ∈ [Component.resistor 1 2 1000, Component.resistor 2 3 500],
      ∃ i j r, comp = Component.resistor i j r) ∧
    matGetD (assemble_MNA_system
        [Component.resistor 1 2 1000, Component.resistor 2 3 500] ([], [])).1 1 2 =
      matGetD (assemble_MNA_system
        [Component.resistor 1 2 1000, Component.resistor 2 3 500] ([], [])).1 2 1 :=
  ⟨by intro comp hc; fin_cases hc <;> exact ⟨_, _, _, rfl⟩,
   c7_resistor_matrix_symmetric _
     (by intro comp hc; fin_cases hc <;> exact ⟨_, _, _, rfl⟩) 1 2⟩

theorem cru_scan_diag_of_not_mem (tgt : Nat) (sol : List ℚ) (l : SRow) (s d : ℚ)
    (h : tgt ∉ l.map Prod.fst) : (cru_scan tgt sol l s d).2 = d := by
  induction l generalizing s d with
  | nil => rfl
  | cons hd tl ih =>
    obtain ⟨k, v⟩ := hd
    simp only [List.map_cons, List.mem_cons] at h
    push_neg at h
    have hk : k ≠ tgt := fun hh => h.1 hh.symm
    simp only [cru_scan]
    rw [if_pos hk]
    exact ih _ _ h.2

theorem cru_scan_diag (tgt : Nat) (sol : List ℚ) (l : SRow) (s : ℚ)
    (hnodup : (l.map Prod.fst).Nodup) :
    (cru_scan tgt sol l s 0).2 = (vecGet l tgt).getD 0 := by
  induction l generalizing s with
  | nil => rfl
  | cons hd tl ih =>
    obtain ⟨k, v⟩ := hd
    simp only [List.map_cons, List.nodup_cons] at hnodup
    by_cases hk : k = tgt
    · subst hk
      simp only [cru_scan]
      rw [if_neg (by simp)]
      have : (cru_scan k sol tl s v).2 = v :=
        cru_scan_diag_of_not_mem k sol tl s v hnodup.1
      rw [this]
      simp [vecGet]
    · simp only [cru_scan]
      rw [if_pos hk]
      rw [ih _ hnodup.2]
      simp [vecGet, hk]

/-- C1: in the per-row body of `dc_solve`, the division in
`compute_row_update` executes only when the coefficient at the row's target
column is present and nonzero.  After `handle_zero_diagonal` runs, a row
whose target coefficient is still absent or exactly `0` is skipped for the
iteration (state and solution pass through untouched except for the pivot
bookkeeping), and whenever the update does execute, the divisor `diag`
computed by the update's scan equals that present nonzero coefficient. -/
theorem c1_no_zero_diagonal_division (df : ℚ) (b : SVec) (row : Nat) (col_map : SRow)
    (st : GSState) (sol : List ℚ)
    (hnodup : (col_map.map Prod.fst).Nodup) :
    ((vecGet col_map ((handle_zero_diagonal row col_map st).targets.getD row 0)).getD 0 = 0 →
      row_step df b (st, sol) (row, col_map) = (handle_zero_diagonal row col_map st, sol)) ∧
    ((vecGet col_map ((handle_zero_diagonal row col_map st).targets.getD row 0)).getD 0 ≠ 0 →
      (cru_scan ((handle_zero_diagonal row col_map st).targets.getD row 0)
          sol col_map 0 0).2 ≠ 0) := by
  constructor
  · intro h
    simp only [row_step]
    rw [if_pos h]
  · intro h
    rw [cru_scan_diag _ _ _ _ hnodup]
    exact h

/-- Witness for C1: a row whose original diagonal is absent is re-pivoted to
column 1, whose coefficient 5 is the nonzero divisor actually used. -/
theorem c1_no_zero_diagonal_division_witness :
    ((List.map Prod.fst [((1 : Nat), (5 : ℚ))]).Nodup ∧
      (vecGet [((1 : Nat), (5 : ℚ))]
        ((handle_zero_diagonal 0 [((1 : Nat), (5 : ℚ))] (initSolver 2)).targets.getD 0 0)).getD 0 ≠ 0) ∧
    (cru_scan ((handle_zero_diagonal 0 [((1 : Nat), (5 : ℚ))] (initSolver 2)).targets.getD 0 0)
        [0, 0] [((1 : Nat), (5 : ℚ))] 0 0).2 ≠ 0 := by
  have hset : (handle_zero_diagonal 0 [((1 : Nat), (5 : ℚ))] (initSolver 2)).targets.getD 0 0 = 1 := by
    norm_num [handle_zero_diagonal, initSolver, hzd_scan, vecGet, setInsert, findOwner,
      List.range_succ]
  have hv : (vecGet [((1 : Nat), (5 : ℚ))]
      ((handle_zero_diagonal 0 [((1 : Nat), (5 : ℚ))] (initSolver 2)).targets.getD 0 0)).getD 0 ≠ 0 := by
    rw [hset]; norm_num [vecGet]
  exact ⟨⟨by decide, hv⟩,
    (c1_no_zero_diagonal_division 1 [] 0 [((1 : Nat), (5 : ℚ))] (initSolver 2) [0, 0]
      (by decide)).2 hv⟩

theorem handle_zero_diagonal_converged (row : Nat) (cm : SRow) (st : GSState) :
    (handle_zero_diagonal row cm st).converged = st.converged := by
  unfold handle_zero_diagonal
  dsimp only
  split
  · rfl
  · split
    · rfl
    · rfl

theorem row_step_converged (df : ℚ) (bv : SVec) (s : GSState × List ℚ) (rc : Nat × SRow) :
    (row_step df bv s rc).1.converged = s.1.converged := by
  unfold row_step
  dsimp only
  split
  · exact handle_zero_diagonal_converged _ _ _
  · exact handle_zero_diagonal_converged _ _ _

theorem gs_sweep_converged (df : ℚ) (A : SMat) (bv : SVec) (s : GSState × List ℚ) :
    (gs_sweep df A bv s).1.converged = s.1.converged := by
  unfold gs_sweep
  induction A generalizing s with
  | nil => rfl
  | cons rc tl ih => rw [List.foldl_cons, ih, row_step_converged]

theorem check_convergence_iff (tol : ℚ) (bv : SVec) (lhs : List ℚ) (size : Nat) :
    check_convergence tol bv lhs size = true ↔
      ∀ i < size, |lhs.getD i 0 - (vecGet bv i).getD 0| ≤ tol := by
  simp [check_convergence, List.all_eq_true, List.mem_range]

theorem dc_loop_skip_check (p : GSParams) (A : SMat) (b : SVec) (k : Nat)
    (s : GSState × List ℚ) (hk : k < p.max_iter) (h5 : k % 5 ≠ 0) :
    dc_loop p A b k s =
      dc_loop p A b (k + 1)
        ({ (gs_sweep p.damping_factor A b s).1 with converge_iters := k },
          (gs_sweep p.damping_factor A b s).2) := by
  rw [dc_loop, dif_pos hk]
  dsimp only
  rw [if_pos h5]

theorem dc_loop_pass_check (p : GSParams) (A : SMat) (b : SVec) (k : Nat)
    (s : GSState × List ℚ) (hk : k < p.max_iter) (h5 : ¬ k % 5 ≠ 0)
    (hcv : check_convergence p.tolerance b (gs_sweep p.damping_factor A b s).1.lhs_values
      (gs_sweep p.damping_factor A b s).2.length = true) :
    dc_loop p A b k s =
      ({ (gs_sweep p.damping_factor A b s).1 with converge_iters := k, converged := true },
        (gs_sweep p.damping_factor A b s).2) := by
  rw [dc_loop, dif_pos hk]
  dsimp only
  rw [if_neg h5, if_pos hcv]

theorem dc_loop_exhausted (p : GSParams) (A : SMat) (b : SVec) (k : Nat)
    (s : GSState × List ℚ) (hk : ¬ k < p.max_iter) :
    dc_loop p A b k s = ({ s.1 with converge_iters := k }, s.2) := by
  rw [dc_loop, dif_neg hk]

theorem dc_loop_converged_check (p : GSParams) (A : SMat) (b : SVec) :
    ∀ n k (st : GSState) (sol : List ℚ), p.max_iter - k = n → st.converged = false →
      (dc_loop p A b k (st, sol)).1.converged = true →
      check_convergence p.tolerance b (dc_loop p A b k (st, sol)).1.lhs_values
        (dc_loop p A b k (st, sol)).2.length = true := by
  intro n
  induction n with
  | zero =>
    intro k st sol hn hc hres
    have hk : ¬ k < p.max_iter := by omega
    rw [dc_loop_exhausted p A b k _ hk] at hres
    dsimp only at hres
    rw [hc] at hres
    cases hres
  | succ n ih =>
    intro k st sol hn hc hres
    by_cases hk : k < p.max_iter
    · by_cases h5 : k % 5 ≠ 0
      · rw [dc_loop_skip_check p A b k _ hk h5] at hres ⊢
        refine ih (k + 1) _ _ (by omega) ?_ hres
        show (gs_sweep p.damping_factor A b (st, sol)).1.converged = false
        rw [gs_sweep_converged]
        exact hc
      · by_cases hcv : check_convergence p.tolerance b
            (gs_sweep p.damping_factor A b (st, sol)).1.lhs_values
            (gs_sweep p.damping_factor A b (st, sol)).2.length = true
        · rw [dc_loop_pass_check p A b k _ hk h5 hcv]
          exact hcv
        · rw [dc_loop, dif_pos hk] at hres ⊢
          dsimp only at hres ⊢
          rw [if_neg h5, if_neg hcv] at hres ⊢
          exact ih (k + 1) _ _ (by omega) rfl hres
    · rw [dc_loop_exhausted p A b k _ hk] at hres
      dsimp only at hres
      rw [hc] at hres
      cases hres

/-- C5: during `dc_solve`, the convergence check runs only after every 5th
completed iteration (other iterations recurse without touching the
`converged` flag); the check passes iff every row index `i < size` satisfies
`|lhs_values[i] - b[i]| ≤ tolerance` (absent `b[i]` read as 0); on a passing
check the loop stops immediately with `converged = true`; when the
iteration budget is exhausted the loop stops leaving the current solution
as the result, and a result with `converged = true` always carries
`lhs_values` and a solution that pass the convergence criterion (so
exhaustion without a passing check yields `converged = false`). -/
theorem c5_convergence_policy (p : GSParams) (A : SMat) (b : SVec) :
    (∀ tol bv lhs size, check_convergence tol bv lhs size = true ↔
        ∀ i < size, |lhs.getD i 0 - (vecGet bv i).getD 0| ≤ tol) ∧
    (∀ k s, k < p.max_iter → k % 5 ≠ 0 →
      dc_loop p A b k s =
        dc_loop p A b (k + 1)
          ({ (gs_sweep p.damping_factor A b s).1 with converge_iters := k },
            (gs_sweep p.damping_factor A b s).2)) ∧
    (∀ k s, k < p.max_iter → ¬ k % 5 ≠ 0 →
      check_convergence p.tolerance b (gs_sweep p.damping_factor A b s).1.lhs_values
          (gs_sweep p.damping_factor A b s).2.length = true →
      dc_loop p A b k s =
        ({ (gs_sweep p.damping_factor A b s).1 with converge_iters := k, converged := true },
          (gs_sweep p.damping_factor A b s).2)) ∧
    (∀ k s, ¬ k < p.max_iter → dc_loop p A b k s = ({ s.1 with converge_iters := k }, s.2)) ∧
    (∀ (sol : List ℚ), (dc_solve p A b sol).1.converged = true →
      check_convergence p.tolerance b (dc_solve p A b sol).1.lhs_values
        (dc_solve p A b sol).2.length = true) ∧
    (∀ sol, dc_solve p A b sol = dc_loop p A b 1 (initSolver sol.length, sol)) := by
  refine ⟨check_convergence_iff, dc_loop_skip_check p A b, dc_loop_pass_check p A b,
    dc_loop_exhausted p A b, ?_, fun _ => rfl⟩
  intro sol hres
  exact dc_loop_converged_check p A b (p.max_iter - 1) 1 (initSolver sol.length) sol
    rfl rfl hres

/-- Witness for C5 exercising the skip rule at iteration 3, the passing
check at iteration 5 on an empty system, and exhaustion, at concrete
parameters. -/
theorem c5_convergence_policy_witness :
    ((3 : Nat) < 10 ∧ (3 : Nat) % 5 ≠ 0 ∧
      dc_loop ⟨10, 1, 1/2⟩ [] [] 3 (initSolver 2, [0, 0]) =
        dc_loop ⟨10, 1, 1/2⟩ [] [] 4
          ({ (gs_sweep (1/2 : ℚ) [] [] (initSolver 2, [0, 0])).1 with converge_iters := 3 },
            (gs_sweep (1/2 : ℚ) [] [] (initSolver 2, [0, 0])).2)) ∧
    ((5 : Nat) < 10 ∧ ¬ (5 : Nat) % 5 ≠ 0 ∧
      dc_loop ⟨10, 1, 1/2⟩ [] [] 5 (initSolver 2, [0, 0]) =
        ({ (gs_sweep (1/2 : ℚ) [] [] (initSolver 2, [0, 0])).1 with
            converge_iters := 5, converged := true },
          (gs_sweep (1/2 : ℚ) [] [] (initSolver 2, [0, 0])).2)) ∧
    (¬ (10 : Nat) < 10 ∧
      dc_loop ⟨10, 1, 1/2⟩ [] [] 10 (initSolver 2, [0, 0]) =
        ({ initSolver 2 with converge_iters := 10 }, [0, 0])) := by
  have hcv : check_convergence (1 : ℚ) []
      (gs_sweep (1/2 : ℚ) [] [] (initSolver 2, ([0, 0] : List ℚ))).1.lhs_values
      (gs_sweep (1/2 : ℚ) [] [] (initSolver 2, ([0, 0] : List ℚ))).2.length = true := by
    norm_num [check_convergence, gs_sweep, initSolver, vecGet, List.range_succ,
      List.foldl_nil, List.replicate]
  refine ⟨⟨by decide, by decide, ?_⟩, ⟨by decide, by decide, ?_⟩, ⟨by decide, ?_⟩⟩
  · exact (c5_convergence_policy ⟨10, 1, 1/2⟩ [] []).2.1 3 (initSolver 2, [0, 0])
      (by decide) (by decide)
  · exact (c5_convergence_policy ⟨10, 1, 1/2⟩ [] []).2.2.1 5 (initSolver 2, [0, 0])
      (by decide) (by decide) hcv
  · exact (c5_convergence_policy ⟨10, 1, 1/2⟩ [] []).2.2.2.1 10 (initSolver 2, [0, 0])
      (by decide)

theorem hzd_scan_invariant (tgt : Nat) (indep : List Nat) :
    ∀ (cm : SRow), (∀ q ∈ candList indep cm, q.1 ≠ tgt) →
    ∀ (C : SRow) (mv : ℚ) (mi : Nat) (ind : Bool),
      ScanInv tgt C (mv, mi, ind) →
      ScanInv tgt (C ++ candList indep cm) (hzd_scan tgt indep cm mv mi ind) := by
  intro cm
  induction cm with
  | nil =>
    intro _ C mv mi ind hInv
    simpa [candList, hzd_scan] using hInv
  | cons hd tl ih =>
    intro hcols C mv mi ind hInv
    obtain ⟨col, value⟩ := hd
    by_cases hz : value = 0
    · have hcand : candList indep ((col, value) :: tl) = candList indep tl := by
        simp [candList, hz]
      rw [hcand] at hcols ⊢
      simp only [hzd_scan, if_pos hz]
      exact ih hcols C mv mi ind hInv
    · by_cases hmem : col ∈ indep
      · have hcand : candList indep ((col, value) :: tl) = candList indep tl := by
          simp [candList, hmem]
        rw [hcand] at hcols ⊢
        simp only [hzd_scan]
        rw [if_neg hz, if_pos hmem]
        exact ih hcols C mv mi ind hInv
      · have hcand : candList indep ((col, value) :: tl) =
            (col, value) :: candList indep tl := by
          simp [candList, hz, hmem]
        rw [hcand] at hcols ⊢
        have hcoltgt : col ≠ tgt := hcols (col, value) (List.mem_cons_self _ _)
        have hcols' : ∀ q ∈ candList indep tl, q.1 ≠ tgt :=
          fun q hq => hcols q (List.mem_cons_of_mem _ hq)
        simp only [hzd_scan]
        rw [if_neg hz, if_neg hmem]
        try dsimp only
        by_cases hle : |value| ≤ mv
        · rw [if_pos hle]
          have hCne : C ≠ [] := by
            intro hC
            obtain ⟨hmi0, hmv0, -⟩ := hInv.1 hC
            have hmv0' : mv = 0 := hmv0
            rw [hmv0'] at hle
            exact hz (abs_eq_zero.mp (le_antisymm hle (abs_nonneg value)))
          obtain ⟨hmi, ⟨v, hvmem, hmv, hmax⟩, hind⟩ := hInv.2 hCne
          have hmi2 : mi ≠ tgt := hmi
          have hmv' : mv = |v| := hmv
          have hvmem' : (mi, v) ∈ C := hvmem
          have hmi' : (if mi ≠ tgt then false else ind) = false := by
            rw [if_pos hmi2]
          rw [hmi']
          have hnew : ScanInv tgt (C ++ [(col, value)]) (mv, mi, false) := by
            constructor
            · intro h; simp at h
            · intro _
              refine ⟨hmi, ⟨v, List.mem_append_left _ hvmem', hmv, ?_⟩, ?_⟩
              · intro q hq
                rcases List.mem_append.mp hq with h | h
                · exact hmax q h
                · simp only [List.mem_singleton] at h
                  rw [h]
                  rw [hmv'] at hle
                  exact hle
              · constructor
                · intro h; cases h
                · intro h
                  exfalso
                  have : C.length + 1 = 1 := by simpa using h
                  have : C.length = 0 := by omega
                  exact hCne (List.length_eq_zero.mp this)
          have := ih hcols' (C ++ [(col, value)]) mv mi false hnew
          rwa [List.append_assoc] at this
        · rw [if_neg hle]
          push_neg at hle
          have hnew : ScanInv tgt (C ++ [(col, value)])
              (|value|, col, if mi ≠ tgt then false else ind) := by
            constructor
            · intro h; simp at h
            · intro _
              refine ⟨hcoltgt, ⟨value, List.mem_append_right _ (by simp), rfl, ?_⟩, ?_⟩
              · intro q hq
                rcases List.mem_append.mp hq with h | h
                · by_cases hC : C = []
                  · subst hC; simp at h
                  · obtain ⟨-, ⟨v, -, hmv, hmax⟩, -⟩ := hInv.2 hC
                    have hmv' : mv = |v| := hmv
                    exact (hmax q h).trans (by rw [← hmv']; exact hle.le)
                · simp only [List.mem_singleton] at h
                  rw [h]
              · by_cases hC : C = []
                · obtain ⟨hmi, -, hind⟩ := hInv.1 hC
                  have hmi' : mi = tgt := hmi
                  have hind' : ind = true := hind
                  subst hC
                  simp [hmi', hind']
                · obtain ⟨hmi, -, -⟩ := hInv.2 hC
                  have hmi' : mi ≠ tgt := hmi
                  rw [if_pos hmi']
                  constructor
                  · intro h; cases h
                  · intro h
                    exfalso
                    have : C.length + 1 = 1 := by simpa using h
                    exact hC (List.length_eq_zero.mp (by omega))
          have := ih hcols' (C ++ [(col, value)]) |value| col _ hnew
          rwa [List.append_assoc] at this

theorem vecGet_of_mem_nodup (l : SRow) (k : Nat) (v : ℚ)
    (hnodup : (l.map Prod.fst).Nodup) (hmem : (k, v) ∈ l) : vecGet l k = some v := by
  induction l with
  | nil => cases hmem
  | cons hd tl ih =>
    obtain ⟨k0, v0⟩ := hd
    simp only [List.map_cons, List.nodup_cons] at hnodup
    rcases List.mem_cons.mp hmem with h | h
    · obtain ⟨rfl, rfl⟩ := Prod.mk.injEq .. |>.mp h.symm
      simp [vecGet]
    · have hk : k0 ≠ k := by
        intro he
        subst he
        exact hnodup.1 (List.mem_map.mpr ⟨(k0, v), h, rfl⟩)
      simp [vecGet, hk, ih hnodup.2 h]

theorem getD_set_self_nat (l : List Nat) (i : Nat) (a : Nat) (h : i < l.length) :
    (l.set i a).getD i 0 = a := by
  simp [List.getD_eq_getElem?_getD, List.getElem?_set_self, h]

theorem mem_setInsert (x m : Nat) (s : List Nat) :
    x ∈ setInsert m s ↔ (x = m ∨ x ∈ s) := by
  unfold setInsert
  split
  · constructor
    · exact fun h => Or.inr h
    · rintro (rfl | h)
      · assumption
      · exact h
  · simp [List.mem_cons]

/-- C6: whenever a row's current target coefficient is absent or exactly 0,
`handle_zero_diagonal` retargets the row to a column holding the largest
absolute value among the row's nonzero entries whose column is not in
`independent_targets`; if exactly one such candidate exists, that column is
added to `independent_targets` (and only then); if no candidate exists,
the state — in particular the row's target — is left unchanged. -/
theorem c6_pivot_retarget_spec (row : Nat) (cm : SRow) (st : GSState)
    (hnodup : (cm.map Prod.fst).Nodup)
    (habs : (vecGet cm (st.targets.getD row 0)).getD 0 = 0)
    (hrow : row < st.targets.length) :
    (candList st.independent_targets cm = [] → handle_zero_diagonal row cm st = st) ∧
    (candList st.independent_targets cm ≠ [] →
      (∃ v, ((handle_zero_diagonal row cm st).targets.getD row 0, v) ∈
          candList st.independent_targets cm ∧
        ∀ q ∈ candList st.independent_targets cm, |q.2| ≤ |v|) ∧
      ((candList st.independent_targets cm).length = 1 →
        ∀ x, x ∈ (handle_zero_diagonal row cm st).independent_targets ↔
          (x = (handle_zero_diagonal row cm st).targets.getD row 0 ∨
            x ∈ st.independent_targets)) ∧
      ((candList st.independent_targets cm).length ≠ 1 →
        (handle_zero_diagonal row cm st).independent_targets =
          st.independent_targets)) := by
  have hguard : ¬ ((vecGet cm (st.targets.getD row 0)).getD 0 ≠ 0) := fun h => h habs
  have hcols : ∀ q ∈ candList st.independent_targets cm, q.1 ≠ st.targets.getD row 0 := by
    intro q hq hqt
    have hq' := List.mem_filter.mp hq
    have hz : q.2 ≠ 0 := (of_decide_eq_true hq'.2).1
    have hmem : (st.targets.getD row 0, q.2) ∈ cm := by
      rw [← hqt]; exact hq'.1
    rw [vecGet_of_mem_nodup cm _ _ hnodup hmem] at habs
    exact hz habs
  have hScan := hzd_scan_invariant (st.targets.getD row 0) st.independent_targets cm hcols
    [] 0 (st.targets.getD row 0) true
    ⟨fun _ => ⟨rfl, rfl, rfl⟩, fun h => absurd rfl h⟩
  rw [List.nil_append] at hScan
  constructor
  · intro hC
    have hmi : (hzd_scan (st.targets.getD row 0) st.independent_targets cm 0
        (st.targets.getD row 0) true).2.1 = st.targets.getD row 0 := (hScan.1 hC).1
    unfold handle_zero_diagonal
    dsimp only
    rw [if_neg hguard, if_pos hmi]
  · intro hC
    obtain ⟨hmi, ⟨v, hvmem, hmv, hmax⟩, hind⟩ := hScan.2 hC
    have hmi' : (hzd_scan (st.targets.getD row 0) st.independent_targets cm 0
        (st.targets.getD row 0) true).2.1 ≠ st.targets.getD row 0 := hmi
    have hst' : handle_zero_diagonal row cm st =
        { st with
          targets :=
            (match findOwner (hzd_scan (st.targets.getD row 0) st.independent_targets cm 0
                (st.targets.getD row 0) true).2.1 st.targets with
              | some i => st.targets.set i (st.targets.getD row 0)
              | none => st.targets).set row
              (hzd_scan (st.targets.getD row 0) st.independent_targets cm 0
                (st.targets.getD row 0) true).2.1,
          independent_targets :=
            if (hzd_scan (st.targets.getD row 0) st.independent_targets cm 0
                (st.targets.getD row 0) true).2.2 then
              setInsert (hzd_scan (st.targets.getD row 0) st.independent_targets cm 0
                (st.targets.getD row 0) true).2.1 st.independent_targets
            else st.independent_targets } := by
      unfold handle_zero_diagonal
      dsimp only
      rw [if_neg hguard, if_neg hmi']
    have htglen :
        (match findOwner (hzd_scan (st.targets.getD row 0) st.independent_targets cm 0
            (st.targets.getD row 0) true).2.1 st.targets with
          | some i => st.targets.set i (st.targets.getD row 0)
          | none => st.targets).length = st.targets.length := by
      rcases findOwner (hzd_scan (st.targets.getD row 0) st.independent_targets cm 0
          (st.targets.getD row 0) true).2.1 st.targets with _ | i
      · rfl
      · exact List.length_set ..
    have hnewtgt : (handle_zero_diagonal row cm st).targets.getD row 0 =
        (hzd_scan (st.targets.getD row 0) st.independent_targets cm 0
          (st.targets.getD row 0) true).2.1 := by
      rw [hst']
      exact getD_set_self_nat _ row _ (by rw [htglen]; exact hrow)
    refine ⟨⟨v, ?_, hmax⟩, ?_, ?_⟩
    · rw [hnewtgt]; exact hvmem
    · intro hlen x
      have hindT : (hzd_scan (st.targets.getD row 0) st.independent_targets cm 0
          (st.targets.getD row 0) true).2.2 = true := hind.mpr hlen
      rw [hnewtgt, hst']
      dsimp only
      rw [hindT]
      simp only [if_true]
      exact mem_setInsert x _ st.independent_targets
    · intro hlen
      have hindF : (hzd_scan (st.targets.getD row 0) st.independent_targets cm 0
          (st.targets.getD row 0) true).2.2 = false := by
        rcases Bool.eq_false_or_eq_true (hzd_scan (st.targets.getD row 0)
            st.independent_targets cm 0 (st.targets.getD row 0) true).2.2 with h | h
        · exact absurd (hind.mp h) hlen
        · exact h
      rw [hst']
      dsimp only
      rw [hindF]
      simp

/-- Witness for C6: a row with exactly one candidate `(1, 3)` is retargeted
to column 1 and column 1 is marked independent. -/
theorem c6_pivot_retarget_spec_witness :
    ((List.map Prod.fst [((1 : Nat), (3 : ℚ))]).Nodup ∧
      (vecGet [((1 : Nat), (3 : ℚ))] ((initSolver 2).targets.getD 0 0)).getD 0 = 0 ∧
      0 < (initSolver 2).targets.length ∧
      candList (initSolver 2).independent_targets [((1 : Nat), (3 : ℚ))] ≠ []) ∧
    ((∃ v, ((handle_zero_diagonal 0 [((1 : Nat), (3 : ℚ))] (initSolver 2)).targets.getD 0 0, v) ∈
        candList (initSolver 2).independent_targets [((1 : Nat), (3 : ℚ))] ∧
      ∀ q ∈ candList (initSolver 2).independent_targets [((1 : Nat), (3 : ℚ))], |q.2| ≤ |v|) ∧
    ((candList (initSolver 2).independent_targets [((1 : Nat), (3 : ℚ))]).length = 1 →
      ∀ x, x ∈ (handle_zero_diagonal 0 [((1 : Nat), (3 : ℚ))] (initSolver 2)).independent_targets ↔
        (x = (handle_zero_diagonal 0 [((1 : Nat), (3 : ℚ))] (initSolver 2)).targets.getD 0 0 ∨
          x ∈ (initSolver 2).independent_targets)) ∧
    ((candList (initSolver 2).independent_targets [((1 : Nat), (3 : ℚ))]).length ≠ 1 →
      (handle_zero_diagonal 0 [((1 : Nat), (3 : ℚ))] (initSolver 2)).independent_targets =
        (initSolver 2).independent_targets)) :=
  ⟨⟨by decide, by decide, by decide, by decide⟩,
    (c6_pivot_retarget_spec 0 [((1 : Nat), (3 : ℚ))] (initSolver 2)
      (by decide) (by decide) (by decide)).2 (by decide)⟩

theorem getD_cons_swap_perm : ∀ (xs : List Nat) (m : Nat) (x : Nat), m < xs.length →
    List.Perm (xs.getD m 0 :: xs.set m x) (x :: xs) := by
  intro xs
  induction xs with
  | nil => intro m x h; simp at h
  | cons y ys ih =>
    intro m x h
    cases m with
    | zero => simp [List.getD]; exact List.Perm.swap _ _ _
    | succ m =>
      simp only [List.getD_cons_succ, List.set_cons_succ]
      have h' : m < ys.length := by simpa using h
      exact ((List.Perm.swap y (ys.getD m 0) _).trans
        ((List.Perm.cons y (ih m x h')).trans (List.Perm.swap x y ys)))

theorem set_set_swap_perm (l : List Nat) (i j : Nat) (hi : i < l.length) (hj : j < l.length)
    (hne : i ≠ j) : List.Perm ((l.set i (l.getD j 0)).set j (l.getD i 0)) l := by
  induction l generalizing i j with
  | nil => simp at hi
  | cons y ys ih =>
    cases i with
    | zero =>
      cases j with
      | zero => exact absurd rfl hne
      | succ j =>
        simp only [List.getD_cons_zero, List.getD_cons_succ, List.set_cons_zero,
          List.set_cons_succ]
        have hj' : j < ys.length := by simpa using hj
        exact getD_cons_swap_perm ys j y hj'
    | succ i =>
      cases j with
      | zero =>
        simp only [List.getD_cons_zero, List.getD_cons_succ, List.set_cons_zero,
          List.set_cons_succ]
        have hi' : i < ys.length := by simpa using hi
        exact getD_cons_swap_perm ys i y hi'
      | succ j =>
        simp only [List.getD_cons_succ, List.set_cons_succ]
        have hi' : i < ys.length := by simpa using hi
        have hj' : j < ys.length := by simpa using hj
        exact List.Perm.cons y (ih i j hi' hj' (by omega))

theorem findOwner_mem (x : Nat) : ∀ (l : List Nat), x ∈ l →
    ∃ i, findOwner x l = some i ∧ i < l.length ∧ l.getD i 0 = x := by
  intro l
  induction l with
  | nil => intro h; cases h
  | cons y ys ih =>
    intro h
    by_cases hy : y = x
    · exact ⟨0, by simp [findOwner, hy], by simp, by simp [hy, List.getD]⟩
    · have hx : x ∈ ys := by
        rcases List.mem_cons.mp h with h | h
        · exact absurd h.symm hy
        · exact h
      obtain ⟨i, hfo, hlen, hval⟩ := ih hx
      exact ⟨i + 1, by simp [findOwner, hy, hfo], by simpa using Nat.succ_lt_succ hlen,
        by simpa [List.getD_cons_succ] using hval⟩

theorem hzd_scan_idx_mem (tgt : Nat) (indep : List Nat) :
    ∀ (cm : SRow) (mv : ℚ) (mi : Nat) (ind : Bool),
      (hzd_scan tgt indep cm mv mi ind).2.1 = mi ∨
      (hzd_scan tgt indep cm mv mi ind).2.1 ∈ cm.map Prod.fst := by
  intro cm
  induction cm with
  | nil => intro mv mi ind; left; rfl
  | cons hd tl ih =>
    intro mv mi ind
    obtain ⟨col, value⟩ := hd
    simp only [hzd_scan]
    by_cases hz : value = 0
    · rw [if_pos hz]
      rcases ih mv mi ind with h | h
      · left; exact h
      · right; simp [h]
    · rw [if_neg hz]
      by_cases hm : col ∈ indep
      · rw [if_pos hm]
        rcases ih mv mi ind with h | h
        · left; exact h
        · right
          rw [List.map_cons]
          exact List.mem_cons_of_mem _ h
      · rw [if_neg hm]
        try dsimp only
        by_cases hle : |value| ≤ mv
        · rw [if_pos hle]
          rcases ih mv mi _ with h | h
          · left; exact h
          · right
            rw [List.map_cons]
            exact List.mem_cons_of_mem _ h
        · rw [if_neg hle]
          rcases ih |value| col _ with h | h
          · right
            rw [List.map_cons, h]
            exact List.mem_cons_self _ _
          · right
            rw [List.map_cons]
            exact List.mem_cons_of_mem _ h

theorem handle_targets_perm (row : Nat) (cm : SRow) (st : GSState) (n : Nat)
    (hrow : row < n)
    (hcols : ∀ c ∈ cm.map Prod.fst, c < n)
    (hperm : List.Perm st.targets (List.range n)) :
    List.Perm (handle_zero_diagonal row cm st).targets (List.range n) := by
  unfold handle_zero_diagonal
  dsimp only
  split
  · exact hperm
  · split
    · exact hperm
    · next hne =>
      have hMmem : (hzd_scan (st.targets.getD row 0) st.independent_targets cm 0
          (st.targets.getD row 0) true).2.1 ∈ cm.map Prod.fst := by
        rcases hzd_scan_idx_mem (st.targets.getD row 0) st.independent_targets cm 0
            (st.targets.getD row 0) true with h | h
        · exact absurd h hne
        · exact h
      have hMn : (hzd_scan (st.targets.getD row 0) st.independent_targets cm 0
          (st.targets.getD row 0) true).2.1 < n := hcols _ hMmem
      have hlen : st.targets.length = n := hperm.length_eq.trans (List.length_range n)
      have hMts : (hzd_scan (st.targets.getD row 0) st.independent_targets cm 0
          (st.targets.getD row 0) true).2.1 ∈ st.targets :=
        hperm.mem_iff.mpr (List.mem_range.mpr hMn)
      obtain ⟨i, hfo, hilen, hival⟩ := findOwner_mem _ st.targets hMts
      rw [hfo]
      have hne2 : i ≠ row := by
        intro he
        subst he
        exact hne hival.symm
      have hsw := set_set_swap_perm st.targets i row hilen (by rw [hlen]; exact hrow) hne2
      rw [hival] at hsw
      exact hsw.trans hperm

theorem row_step_targets (df : ℚ) (bv : SVec) (s : GSState × List ℚ) (rc : Nat × SRow) :
    (row_step df bv s rc).1.targets = (handle_zero_diagonal rc.1 rc.2 s.1).targets := by
  unfold row_step
  dsimp only
  split
  · rfl
  · rfl

theorem gs_sweep_targets_perm (df : ℚ) (bv : SVec) (n : Nat) :
    ∀ (A : SMat), (∀ rc ∈ A, rc.1 < n ∧ ∀ c ∈ rc.2.map Prod.fst, c < n) →
    ∀ s : GSState × List ℚ, List.Perm s.1.targets (List.range n) →
      List.Perm (gs_sweep df A bv s).1.targets (List.range n) := by
  intro A
  induction A with
  | nil => intro _ s h; exact h
  | cons rc tl ih =>
    intro hA s hperm
    show List.Perm (gs_sweep df tl bv (row_step df bv s rc)).1.targets _
    refine ih (fun rc' h => hA rc' (List.mem_cons_of_mem _ h)) _ ?_
    rw [row_step_targets]
    exact handle_targets_perm rc.1 rc.2 s.1 n (hA rc (List.mem_cons_self _ _)).1
      (hA rc (List.mem_cons_self _ _)).2 hperm

theorem dc_loop_targets_perm (p : GSParams) (A : SMat) (b : SVec) (n : Nat)
    (hA : ∀ rc ∈ A, rc.1 < n ∧ ∀ c ∈ rc.2.map Prod.fst, c < n) :
    ∀ (fuel k : Nat) (s : GSState × List ℚ), p.max_iter - k = fuel →
      List.Perm s.1.targets (List.range n) →
      List.Perm (dc_loop p A b k s).1.targets (List.range n) := by
  intro fuel
  induction fuel with
  | zero =>
    intro k s hk hperm
    rw [dc_loop_exhausted p A b k s (by omega)]
    exact hperm
  | succ m ih =>
    intro k s hk hperm
    by_cases hklt : k < p.max_iter
    · have hsweep : List.Perm (gs_sweep p.damping_factor A b s).1.targets (List.range n) :=
        gs_sweep_targets_perm p.damping_factor b n A hA s hperm
      by_cases h5 : k % 5 ≠ 0
      · rw [dc_loop_skip_check p A b k s hklt h5]
        exact ih (k + 1) _ (by omega) hsweep
      · by_cases hcv : check_convergence p.tolerance b
            (gs_sweep p.damping_factor A b s).1.lhs_values
            (gs_sweep p.damping_factor A b s).2.length = true
        · rw [dc_loop_pass_check p A b k s hklt h5 hcv]
          exact hsweep
        · rw [dc_loop, dif_pos hklt]
          dsimp only
          rw [if_neg h5, if_neg hcv]
          exact ih (k + 1) _ (by omega) hsweep
    · rw [dc_loop_exhausted p A b k s hklt]
      exact hperm

/-- C9: within a single `dc_solve` call of system size `n`, the `targets`
vector is at all times a permutation of `{0, ..., n-1}`: `initialize` sets it
to the identity, `handle_zero_diagonal` (the only mutator of `targets`, run
once per processed row) preserves the permutation property — its swap hands
the adopted column's previous owner the row's old target — and hence the
state at the end of the solve still carries a full permutation. -/
theorem c9_targets_permutation :
    (∀ n, (initSolver n).targets = List.range n) ∧
    (∀ (row : Nat) (cm : SRow) (st : GSState) (n : Nat), row < n →
      (∀ c ∈ cm.map Prod.fst, c < n) →
      List.Perm st.targets (List.range n) →
      List.Perm (handle_zero_diagonal row cm st).targets (List.range n)) ∧
    (∀ (p : GSParams) (A : SMat) (b : SVec) (sol : List ℚ),
      (∀ rc ∈ A, rc.1 < sol.length ∧ ∀ c ∈ rc.2.map Prod.fst, c < sol.length) →
      List.Perm (dc_solve p A b sol).1.targets (List.range sol.length)) := by
  refine ⟨fun _ => rfl, handle_targets_perm, ?_⟩
  intro p A b sol hA
  exact dc_loop_targets_perm p A b sol.length hA (p.max_iter - 1) 1
    (initSolver sol.length, sol) rfl (List.Perm.refl _)

/-- Witness for C9 on a 2-variable system whose only row re-pivots from the
missing diagonal at column 0 to column 1. -/
theorem c9_targets_permutation_witness :
    (∀ rc ∈ [((1 : Nat), [((1 : Nat), (2 : ℚ))])],
      rc.1 < ([(0 : ℚ), 0] : List ℚ).length ∧
      ∀ c ∈ rc.2.map Prod.fst, c < ([(0 : ℚ), 0] : List ℚ).length) ∧
    List.Perm (dc_solve ⟨3, 1, 1⟩ [((1 : Nat), [((1 : Nat), (2 : ℚ))])] [] [0, 0]).1.targets
      (List.range ([(0 : ℚ), 0] : List ℚ).length) :=
  ⟨by decide,
    c9_targets_permutation.2.2 ⟨3, 1, 1⟩ [((1 : Nat), [((1 : Nat), (2 : ℚ))])] [] [0, 0]
      (by decide)⟩

theorem row_step_solution_write (df : ℚ) (bv : SVec) (s : GSState × List ℚ)
    (rc : Nat × SRow) :
    (row_update_writes_index rc.1 rc.2 s.1 = none → (row_step df bv s rc).2 = s.2) ∧
    (∀ t, row_update_writes_index rc.1 rc.2 s.1 = some t →
      ∃ x, (row_step df bv s rc).2 = s.2.set t x) := by
  unfold row_step row_update_writes_index
  dsimp only
  split
  · next h =>
    constructor
    · intro _; rfl
    · intro t ht
      cases ht
  · next h =>
    constructor
    · intro hn
      cases hn
    · intro t ht
      obtain rfl : (handle_zero_diagonal rc.1 rc.2 s.1).targets.getD rc.1 0 = t :=
        Option.some.injEq .. |>.mp ht
      exact ⟨_, rfl⟩

/-- C8 counterexample: for the netlist `R1 0 1 1000` the assembled matrix is
`[(0, [(0, 1/1000)])]`; in the very first sweep of the solve, the (only) row
is row 0, the skip rule does not fire, and the row update writes solution
index 0 — so "no row update during `dc_solve` ever writes index 0" is false
for this assembled circuit system. -/
theorem c8_write_index_zero_counterexample :
    (assemble_MNA_system [.resistor 0 1 1000] ([], [])).1 = [(0, [(0, 1/1000)])] ∧
    row_update_writes_index 0 [((0 : Nat), (1/1000 : ℚ))]
      (initSolver ((assemble_MNA_system [.resistor 0 1 1000] ([], [])).1.length + 1)) =
        some 0 := by
  constructor
  · norm_num [assemble_MNA_system, stampComponents, get_contribution, applyMatrixStamps,
      applyVectorStamps, matAdd, vecAdd]
  · have hA : (assemble_MNA_system [.resistor 0 1 1000] ([], [])).1 = [(0, [(0, 1/1000)])] := by
      norm_num [assemble_MNA_system, stampComponents, get_contribution, applyMatrixStamps,
        applyVectorStamps, matAdd, vecAdd]
    rw [hA]
    norm_num [row_update_writes_index, handle_zero_diagonal, initSolver, vecGet,
      List.range_succ]

theorem getD_set_ne_q (l : List ℚ) (t i : Nat) (x : ℚ) (h : t ≠ i) :
    (l.set t x).getD i 0 = l.getD i 0 := by
  simp [List.getD_eq_getElem?_getD, List.getElem?_set_ne h]

theorem getD_set_zero_q (l : List ℚ) (t : Nat) : (l.set t 0).getD t 0 = 0 := by
  by_cases h : t < l.length
  · simp [List.getD_eq_getElem?_getD, List.getElem?_set_self, h]
  · push_neg at h
    rw [List.set_eq_of_length_le h]
    simp [List.getD_eq_getElem?_getD, List.getElem?_eq_none (by simpa using h)]

theorem cru_scan_sum_all_tgt (tgt : Nat) (sol : List ℚ) :
    ∀ (cm : SRow) (s d : ℚ), (∀ c ∈ cm.map Prod.fst, c = tgt) →
      (cru_scan tgt sol cm s d).1 = s := by
  intro cm
  induction cm with
  | nil => intro s d _; rfl
  | cons hd tl ih =>
    intro s d hall
    obtain ⟨k, v⟩ := hd
    have hk : k = tgt := hall k (by simp)
    simp only [cru_scan]
    rw [if_neg (by simp [hk])]
    exact ih s v (fun c hc => hall c (List.mem_cons_of_mem _ hc))

theorem vecGet_key_mem (l : SRow) (k : Nat) (h : (vecGet l k).getD 0 ≠ 0) :
    k ∈ l.map Prod.fst := by
  induction l with
  | nil => exact absurd rfl h
  | cons hd tl ih =>
    obtain ⟨k0, v0⟩ := hd
    by_cases hk : k0 = k
    · rw [List.map_cons, hk]
      exact List.mem_cons_self _ _
    · rw [List.map_cons]
      refine List.mem_cons_of_mem _ (ih ?_)
      simpa [vecGet, hk] using h

theorem vecGet_zero_of_noGround (b : SVec) (hb : vecNoGround b) : vecGet b 0 = none := by
  induction b with
  | nil => rfl
  | cons hd tl ih =>
    obtain ⟨k0, v0⟩ := hd
    have hk : k0 ≠ 0 := hb k0 (by simp)
    simp only [vecGet]
    rw [if_neg hk]
    exact ih (fun r hr => hb r (List.mem_cons_of_mem _ hr))

theorem row_step_keeps_zero (df : ℚ) (bv : SVec) (s : GSState × List ℚ) (rc : Nat × SRow)
    (hiso : ∀ c ∈ rc.2.map Prod.fst, (rc.1 = 0 ↔ c = 0))
    (hb : vecNoGround bv)
    (hsol : s.2.getD 0 0 = 0) :
    (row_step df bv s rc).2.getD 0 0 = 0 := by
  unfold row_step
  dsimp only
  split
  · exact hsol
  · next hguard =>
    by_cases htgt : (handle_zero_diagonal rc.1 rc.2 s.1).targets.getD rc.1 0 = 0
    · have hmem : (0 : Nat) ∈ rc.2.map Prod.fst := by
        apply vecGet_key_mem
        rw [← htgt]
        exact hguard
      have hrow0 : rc.1 = 0 := (hiso 0 hmem).mpr rfl
      have hall : ∀ c ∈ rc.2.map Prod.fst, c = 0 := fun c hc => (hiso c hc).mp hrow0
      unfold compute_row_update
      dsimp only
      rw [htgt]
      have hsum : (cru_scan 0 s.2 rc.2 0 0).1 = 0 :=
        cru_scan_sum_all_tgt 0 s.2 rc.2 0 0 hall
      have hrhs : (vecGet bv rc.1).getD 0 = 0 := by
        rw [hrow0, vecGet_zero_of_noGround bv hb]
        rfl
      rw [hsum, hrhs, hsol]
      have hv : df * ((0 - 0) / (cru_scan 0 s.2 rc.2 0 0).2) + (1 - df) * 0 = 0 := by
        simp
      rw [hv]
      exact getD_set_zero_q s.2 0
    · unfold compute_row_update
      dsimp only
      rw [getD_set_ne_q _ _ _ _ htgt]
      exact hsol

theorem gs_sweep_keeps_zero (df : ℚ) (bv : SVec) (hb : vecNoGround bv) :
    ∀ (A : SMat), (∀ rc ∈ A, ∀ c ∈ rc.2.map Prod.fst, (rc.1 = 0 ↔ c = 0)) →
    ∀ s : GSState × List ℚ, s.2.getD 0 0 = 0 → (gs_sweep df A bv s).2.getD 0 0 = 0 := by
  intro A
  induction A with
  | nil => intro _ s h; exact h
  | cons rc tl ih =>
    intro hA s hsol
    show (gs_sweep df tl bv (row_step df bv s rc)).2.getD 0 0 = 0
    refine ih (fun rc' h => hA rc' (List.mem_cons_of_mem _ h)) _ ?_
    exact row_step_keeps_zero df bv s rc (hA rc (List.mem_cons_self _ _)) hb hsol

theorem dc_loop_keeps_zero (p : GSParams) (A : SMat) (b : SVec)
    (hA : ∀ rc ∈ A, ∀ c ∈ rc.2.map Prod.fst, (rc.1 = 0 ↔ c = 0))
    (hb : vecNoGround b) :
    ∀ (fuel k : Nat) (s : GSState × List ℚ), p.max_iter - k = fuel →
      s.2.getD 0 0 = 0 → (dc_loop p A b k s).2.getD 0 0 = 0 := by
  intro fuel
  induction fuel with
  | zero =>
    intro k s hk hsol
    rw [dc_loop_exhausted p A b k s (by omega)]
    exact hsol
  | succ m ih =>
    intro k s hk hsol
    by_cases hklt : k < p.max_iter
    · have hsweep : (gs_sweep p.damping_factor A b s).2.getD 0 0 = 0 :=
        gs_sweep_keeps_zero p.damping_factor b hb A hA s hsol
      by_cases h5 : k % 5 ≠ 0
      · rw [dc_loop_skip_check p A b k s hklt h5]
        exact ih (k + 1) _ (by omega) hsweep
      · by_cases hcv : check_convergence p.tolerance b
            (gs_sweep p.damping_factor A b s).1.lhs_values
            (gs_sweep p.damping_factor A b s).2.length = true
        · rw [dc_loop_pass_check p A b k s hklt h5 hcv]
          exact hsweep
        · rw [dc_loop, dif_pos hklt]
          dsimp only
          rw [if_neg h5, if_neg hcv]
          exact ih (k + 1) _ (by omega) hsweep
    · rw [dc_loop_exhausted p A b k s hklt]
      exact hsol

theorem vecAdd_keys (k : Nat) (x : ℚ) :
    ∀ (m : SVec) (r : Nat), r ∈ (vecAdd m k x).map Prod.fst →
      r = k ∨ r ∈ m.map Prod.fst := by
  intro m
  induction m with
  | nil =>
    intro r hr
    simp [vecAdd] at hr
    exact Or.inl hr
  | cons hd tl ih =>
    intro r hr
    obtain ⟨k0, v0⟩ := hd
    by_cases h0 : k0 = k
    · rw [show vecAdd ((k0, v0) :: tl) k x = (k0, v0 + x) :: tl by simp [vecAdd, h0]] at hr
      rcases List.mem_cons.mp hr with h | h
      · exact Or.inl (h.trans h0)
      · exact Or.inr (List.mem_cons_of_mem _ h)
    · rw [show vecAdd ((k0, v0) :: tl) k x = (k0, v0) :: vecAdd tl k x by
        simp [vecAdd, h0]] at hr
      rcases List.mem_cons.mp hr with h | h
      · exact Or.inr (by rw [List.map_cons, h]; exact List.mem_cons_self _ _)
      · rcases ih r h with h' | h'
        · exact Or.inl h'
        · exact Or.inr (List.mem_cons_of_mem _ h')

theorem matAdd_iso (r c : Nat) (x : ℚ) (hrc : r = 0 ↔ c = 0) :
    ∀ (A : SMat), matGroundIso A → matGroundIso (matAdd A r c x) := by
  intro A
  induction A with
  | nil =>
    intro _ rc hrcmem c' hc'
    simp [matAdd] at hrcmem
    subst hrcmem
    simp at hc'
    rw [show ((r, [(c, x)]) : Nat × SRow).1 = r from rfl, hc']
    exact hrc
  | cons hd tl ih =>
    intro hA rc hrcmem c' hc'
    obtain ⟨r0, row⟩ := hd
    by_cases h0 : r0 = r
    · rw [show matAdd ((r0, row) :: tl) r c x = (r0, vecAdd row c x) :: tl by
        simp [matAdd, h0]] at hrcmem
      rcases List.mem_cons.mp hrcmem with h | h
      · subst h
        rcases vecAdd_keys c x row c' hc' with h' | h'
        · rw [h', h0]
          exact hrc
        · exact hA (r0, row) (List.mem_cons_self _ _) c' h'
      · exact hA rc (List.mem_cons_of_mem _ h) c' hc'
    · rw [show matAdd ((r0, row) :: tl) r c x = (r0, row) :: matAdd tl r c x by
        simp [matAdd, h0]] at hrcmem
      rcases List.mem_cons.mp hrcmem with h | h
      · subst h
        exact hA (r0, row) (List.mem_cons_self _ _) c' hc'
      · exact ih (fun rc' hm => hA rc' (List.mem_cons_of_mem _ hm)) rc h c' hc'

theorem applyMatrixStamps_iso :
    ∀ (stamps : List (Nat × Nat × ℚ)) (A : SMat),
      (∀ st ∈ stamps, (st.1 = 0 ↔ st.2.1 = 0)) → matGroundIso A →
      matGroundIso (applyMatrixStamps A stamps) := by
  intro stamps
  induction stamps with
  | nil => intro A _ hA; exact hA
  | cons hd tl ih =>
    intro A hst hA
    obtain ⟨r, c, x⟩ := hd
    show matGroundIso (applyMatrixStamps (matAdd A r c x) tl)
    exact ih _ (fun st h => hst st (List.mem_cons_of_mem _ h))
      (matAdd_iso r c x (hst (r, c, x) (List.mem_cons_self _ _)) A hA)

theorem applyVectorStamps_noGround :
    ∀ (stamps : List (Nat × ℚ)) (b : SVec),
      (∀ st ∈ stamps, st.1 ≠ 0) → vecNoGround b →
      vecNoGround (applyVectorStamps b stamps) := by
  intro stamps
  induction stamps with
  | nil => intro b _ hb; exact hb
  | cons hd tl ih =>
    intro b hst hb
    obtain ⟨r, x⟩ := hd
    show vecNoGround (applyVectorStamps (vecAdd b r x) tl)
    refine ih _ (fun st h => hst st (List.mem_cons_of_mem _ h)) ?_
    intro r' hr'
    rcases vecAdd_keys r x b r' hr' with h | h
    · rw [h]
      exact hst (r, x) (List.mem_cons_self _ _)
    · exact hb r' h

theorem get_contribution_matrix_iso (comp : Component) (hx : extraVarNonzero comp) :
    ∀ st ∈ (get_contribution comp).matrixStamps, (st.1 = 0 ↔ st.2.1 = 0) := by
  cases comp with
  | resistor i j r =>
    intro st hst
    by_cases hij : i ≠ 0 ∧ j ≠ 0
    · simp [get_contribution, hij] at hst
      rcases hst with rfl | rfl | rfl | rfl <;> simp [hij.1, hij.2]
    · simp [get_contribution, hij] at hst
      rw [hst]
  | vsource i j k v =>
    intro st hst
    have hk : ¬ k = 0 := hx
    by_cases hi : i ≠ 0 <;> by_cases hj : j ≠ 0 <;>
      simp [get_contribution, hi, hj] at hst <;>
      push_neg at hi hj <;>
      rcases hst with rfl | rfl | rfl | rfl <;> simp_all
  | isource i j c =>
    intro st hst
    simp [get_contribution] at hst
  | inductor i j k l =>
    intro st hst
    have hk : ¬ k = 0 := hx
    by_cases hi : i ≠ 0 <;> by_cases hj : j ≠ 0 <;>
      simp [get_contribution, hi, hj] at hst <;>
      push_neg at hi hj <;>
      rcases hst with rfl | rfl | rfl | rfl <;> simp_all
  | capacitor i j c =>
    intro st hst
    simp [get_contribution] at hst

theorem get_contribution_vector_noGround (comp : Component) :
    ∀ st ∈ (get_contribution comp).vectorStamps, st.1 ≠ 0 := by
  cases comp with
  | resistor i j r =>
    intro st hst
    by_cases hij : i ≠ 0 ∧ j ≠ 0 <;> simp [get_contribution, hij] at hst
  | vsource i j k v =>
    intro st hst
    by_cases hi : i ≠ 0 <;> by_cases hj : j ≠ 0 <;>
      simp [get_contribution, hi, hj] at hst <;>
      rcases hst with rfl | rfl <;> simp_all
  | isource i j c =>
    intro st hst
    by_cases hi : i ≠ 0 <;> by_cases hj : j ≠ 0 <;>
      simp [get_contribution, hi, hj] at hst <;>
      rcases hst with rfl | rfl <;> simp_all
  | inductor i j k l =>
    intro st hst
    by_cases hi : i ≠ 0 <;> by_cases hj : j ≠ 0 <;>
      simp [get_contribution, hi, hj] at hst
  | capacitor i j c =>
    intro st hst
    simp [get_contribution] at hst

theorem stampComponents_groundSafe :
    ∀ (cs : List Component) (A : SMat) (b : SVec),
      (∀ comp ∈ cs, extraVarNonzero comp) →
      matGroundIso A → vecNoGround b →
      matGroundIso (stampComponents cs (A, b)).1 ∧
        vecNoGround (stampComponents cs (A, b)).2 := by
  intro cs
  induction cs with
  | nil => intro A b _ hA hb; exact ⟨hA, hb⟩
  | cons comp tl ih =>
    intro A b hx hA hb
    show matGroundIso (stampComponents tl (_, _)).1 ∧ _
    refine ih _ _ (fun c h => hx c (List.mem_cons_of_mem _ h)) ?_ ?_
    · exact applyMatrixStamps_iso _ A
        (get_contribution_matrix_iso comp (hx comp (List.mem_cons_self _ _))) hA
    · exact applyVectorStamps_noGround _ b (get_contribution_vector_noGround comp) hb

/-- C8 (amended): slot 0 of the solution vector holds exactly `0` at every
point of a solve of an assembled circuit system: `solve_MNA_system`
zero-fills the vector it sizes, every row update performed on a
ground-consistent assembled system preserves `solution[0] = 0` (an update
reaching index 0 writes exactly `0`), and hence the solved vector still has
`solution[0] = 0`.  (The original claim's stronger clause that "no row
update ever writes index 0" is refuted by
`c8_write_index_zero_counterexample`.) -/
theorem c8_slot_zero_amended (p : GSParams) (cs : List Component) (b0 : SVec)
    (hx : ∀ comp ∈ cs, extraVarNonzero comp) (hb0 : vecNoGround b0) :
    (∀ m, resizeZero [] m = List.replicate m 0) ∧
    (∀ (s : GSState × List ℚ) rc, rc ∈ (assemble_MNA_system cs ([], b0)).1 →
      s.2.getD 0 0 = 0 →
      (row_step p.damping_factor (assemble_MNA_system cs ([], b0)).2 s rc).2.getD 0 0 = 0) ∧
    (solve_MNA_system p (assemble_MNA_system cs ([], b0)).1
        (assemble_MNA_system cs ([], b0)).2 []).2.getD 0 0 = 0 := by
  obtain ⟨hiso, hbv⟩ := stampComponents_groundSafe cs [] b0 hx
    (fun rc h => absurd h (List.not_mem_nil rc)) hb0
  refine ⟨fun m => by simp [resizeZero], ?_, ?_⟩
  · intro s rc hrc hsol
    exact row_step_keeps_zero p.damping_factor _ s rc (hiso rc hrc) hbv hsol
  · show (dc_loop p _ _ 1 (initSolver _, resizeZero [] _)).2.getD 0 0 = 0
    refine dc_loop_keeps_zero p _ _ hiso hbv (p.max_iter - 1) 1 _ rfl ?_
    show (resizeZero [] ((assemble_MNA_system cs ([], b0)).1.length + 1)).getD 0 0 = 0
    simp [resizeZero, List.getD_eq_getElem?_getD]

/-- Witness for the amended C8 on the concrete ground-first-resistor circuit
that defeats the original claim. -/
theorem c8_slot_zero_amended_witness :
    (∀ comp ∈ [Component.resistor 0 1 1000], extraVarNonzero comp) ∧
    vecNoGround [] ∧
    (solve_MNA_system ⟨3, 1, 1/2⟩
        (assemble_MNA_system [Component.resistor 0 1 1000] ([], [])).1
        (assemble_MNA_system [Component.resistor 0 1 1000] ([], [])).2 []).2.getD 0 0 = 0 :=
  ⟨by intro comp hc; fin_cases hc; trivial,
   ⟨fun r hr => absurd hr (List.not_mem_nil r),
    (c8_slot_zero_amended ⟨3, 1, 1/2⟩ [Component.resistor 0 1 1000] []
      (by intro comp hc; fin_cases hc; trivial)
      (fun r hr => absurd hr (List.not_mem_nil r))).2.2⟩⟩

example : (assemble_MNA_system [.resistor 1 2 1000] ([], [])).1 =
    [(1, [(1, 1/1000), (2, -1/1000)]), (2, [(2, 1/1000), (1, -1/1000)])] := by
  norm_num [assemble_MNA_system, stampComponents, get_contribution, applyMatrixStamps,
    applyVectorStamps, matAdd, vecAdd]

example : (assemble_MNA_system [.resistor 0 1 1000] ([], [])).1 =
    [(0, [(0, 1/1000)])] := by
  norm_num [assemble_MNA_system, stampComponents, get_contribution, applyMatrixStamps,
    applyVectorStamps, matAdd, vecAdd]

example : parse_dispatch 'l' = none := by decide
